import Mathlib

/-!
Shallow embedding of the report-aggregation core of `app.py` from the
screenshot-analyzer repository: the per-day JSON report list updated by
`process_screenshot`, the text normalisation `preprocess_text`, the
readable-report generation `generate_readable_report`, the persistence
behaviour of the combined report file, the artifact lifecycle of one
pipeline run, and the `GET /report` endpoint `get_latest_report`.

Modelling conventions:
* Timestamps are second-precision natural numbers.  The source stores
  `"%Y-%m-%d %H:%M:%S"` strings and re-parses them with `strptime`; for
  well-formed stamps this round-trips, and `latest - first` is the signed
  difference in seconds, modelled as `Int` (Python stores
  `str(timedelta)`).
* `json.dump` / `json.load` round-trip a list of record objects exactly,
  so the read-modify-write of `combined_report_<date>.json` is modelled as
  the in-memory list update.
* Text is modelled as `List Char` with the ASCII reading of the regex
  classes `\w` and `\s` (the source applies them to OCR output).
-/

/-- One OCR analysis, the `"analysis"` object built by
`analyze_screenshot`: recognised text and the capture timestamp. -/
structure Analysis where
  text : String
  timestamp : Nat
deriving DecidableEq

/-- One element of a day's `combined_report_<date>.json` array: the
`"analysis"` object plus the optional `"total_time"` key. -/
structure Report where
  analysis : Analysis
  total_time : Option Int
deriving DecidableEq

/-- `existing_reports[-1]["total_time"] = time_difference_str`
(`process_screenshot`): set the `total_time` key on the last element,
leaving every other element unchanged. -/
def setLastTotal : List Report → Int → List Report
  | [], _ => []
  | [r], t => [{ r with total_time := some t }]
  | r :: r2 :: rs, t => r :: setLastTotal (r2 :: rs) t

/-- `existing_reports[0]["analysis"]["timestamp"]`; the source only
evaluates it on a non-empty list (guarded by `len(existing_reports) > 1`). -/
def firstTimestamp : List Report → Nat
  | [] => 0
  | r :: _ => r.analysis.timestamp

/-- In-memory update of one `process_screenshot` run on the day's report
list: append the new entry (which carries no `total_time` key); if the list
now has more than one element, store `latest - first` on the new last
element. -/
def appendReport (existing_reports : List Report) (report : Analysis) : List Report :=
  let rs := existing_reports ++ [{ analysis := report, total_time := none }]
  if 1 < rs.length then
    setLastTotal rs ((report.timestamp : Int) - (firstTimestamp rs : Int))
  else rs

/-- The report list produced by a sequence of `process_screenshot` runs on
the same date, starting from the absent-file state (`existing_reports`
initialised to the empty list). -/
def appendAll (as : List Analysis) : List Report :=
  as.foldl appendReport []

/-- Closed form of `appendAll`: the first record never carries
`total_time`; every later record `a` carries
`a.timestamp - a0.timestamp`, set at its own append and never cleared by
later appends. -/
def modelReports : List Analysis → List Report
  | [] => []
  | a0 :: rest =>
    { analysis := a0, total_time := none } ::
      rest.map fun a =>
        { analysis := a, total_time := some ((a.timestamp : Int) - (a0.timestamp : Int)) }

/-- ASCII reading of the regex class `\w` (`[A-Za-z0-9_]`). -/
def isWordChar (c : Char) : Bool := c.isAlphanum || c = '_'

/-- ASCII reading of the regex class `\s`. -/
def isSpaceChar (c : Char) : Bool :=
  c = ' ' || c = '\t' || c = '\n' || c = '\r' || c = '\x0b' || c = '\x0c'

/-- Consume the literal `ps` from the front of `cs`. -/
def afterLit : List Char → List Char → Option (List Char)
  | [], cs => some cs
  | _ :: _, [] => none
  | p :: ps, c :: cs => if c = p then afterLit ps cs else none

/-- Greedy `\S+`: consume one or more characters outside `\s`. -/
def matchSplus (cs : List Char) : Option (List Char) :=
  match cs with
  | [] => none
  | c :: rest =>
    if isSpaceChar c then none
    else some (rest.dropWhile fun d => !isSpaceChar d)

/-- One attempt of the pattern `https?://\S+|www\.\S+` at the head of `cs`
(the `s?` backtracking collapses to trying the literal `https://` and then
`http://`); on success, the remainder of the string after the match. -/
def matchURL (cs : List Char) : Option (List Char) :=
  match afterLit ['h', 't', 't', 'p', 's', ':', '/', '/'] cs with
  | some rest => matchSplus rest
  | none =>
    match afterLit ['h', 't', 't', 'p', ':', '/', '/'] cs with
    | some rest => matchSplus rest
    | none =>
      match afterLit ['w', 'w', 'w', '.'] cs with
      | some rest => matchSplus rest
      | none => none

/-- `re.sub(r'https?://\S+|www\.\S+', '', text)` in `preprocess_text`:
scan left to right, deleting each match.  Every match consumes at least
five characters and every miss consumes one, so a fuel of `cs.length`
never reaches the `0` case with a non-empty list. -/
def stripURLsAux : Nat → List Char → List Char
  | 0, cs => cs
  | _ + 1, [] => []
  | fuel + 1, c :: cs =>
    match matchURL (c :: cs) with
    | some rest => stripURLsAux fuel rest
    | none => c :: stripURLsAux fuel cs

def stripURLs (cs : List Char) : List Char :=
  stripURLsAux cs.length cs

/-- The suffix of `cs` after its last newline (all of `cs` when it has
none): without `re.MULTILINE` this is the only region where `\?.*$` can
match, since `.` cannot cross a newline. -/
def lastLineOf (cs : List Char) : List Char :=
  (cs.reverse.takeWhile fun c => c ≠ '\n').reverse

/-- Delete from the first `'?'` of the last line to the end. -/
def stripQueryBody (cs : List Char) : List Char :=
  cs.take (cs.length - (lastLineOf cs).length) ++
    (lastLineOf cs).takeWhile fun c => c ≠ '?'

/-- `re.sub(r'\?.*$', '', text)` in `preprocess_text`: `$` matches at the
end of the string or just before a final newline, so the pattern deletes
from the first `'?'` of the last line onward and a final newline, if any,
survives the deletion. -/
def stripQuery (cs : List Char) : List Char :=
  if cs.getLast? = some '\n' then stripQueryBody cs.dropLast ++ ['\n']
  else stripQueryBody cs

/-- `re.sub(r'[^\w\s]', '', text)`: keep only word and whitespace
characters. -/
def removeSpecial (cs : List Char) : List Char :=
  cs.filter fun c => isWordChar c || isSpaceChar c

/-- `re.sub(r'\s+', ' ', text)`: replace each maximal whitespace run by a
single space; `prev` records whether a run is in progress. -/
def collapseSpacesAux : Bool → List Char → List Char
  | _, [] => []
  | prev, c :: cs =>
    if isSpaceChar c then
      if prev then collapseSpacesAux true cs
      else ' ' :: collapseSpacesAux true cs
    else c :: collapseSpacesAux false cs

/-- `str.strip()`: drop whitespace from both ends. -/
def pyStrip (cs : List Char) : List Char :=
  (cs.dropWhile isSpaceChar).rdropWhile isSpaceChar

/-- `preprocess_text` of `app.py`: strip URLs, delete from a query `'?'`
to the end, drop special characters, collapse whitespace runs and trim. -/
def preprocess_text (cs : List Char) : List Char :=
  pyStrip (collapseSpacesAux false (removeSpecial (stripQuery (stripURLs cs))))

/-- Adjacent characters are never both whitespace. -/
def SpacedOK (a b : Char) : Prop :=
  ¬(isSpaceChar a = true ∧ isSpaceChar b = true)

/-- `os.path.join(SCREENSHOT_DIR, f"combined_report_{current_date}.json")`
written by `process_screenshot`. -/
def report_path (date : String) : String :=
  "screenshots/combined_report_" ++ date ++ ".json"

/-- `os.path.join(SCREENSHOT_DIR, f"readable_report_{today_date}.txt")`
written by `generate_readable_report`. -/
def readable_path (date : String) : String :=
  "screenshots/readable_report_" ++ date ++ ".txt"

/-- `os.path.join(SCREENSHOT_DIR, "combined_report.json")` — the fixed,
date-less path read by the `GET /report` handler `get_latest_report`. -/
def latest_report_path : String := "screenshots/combined_report.json"

/-- A flat file system: path-content pairs; `fsWrite` shadows and drops
any previous entry for the path. -/
abbrev FS := List (String × String)

def fsWrite (p c : String) (fs : FS) : FS :=
  (p, c) :: fs.filter fun e => e.1 != p

def fsRead (p : String) (fs : FS) : Option String :=
  (fs.find? fun e => e.1 == p).map fun e => e.2

/-- The `GET /report` handler of `app.py`: if the date-less
`combined_report.json` is absent, status 404 with the fixed error object;
otherwise status 200 with the file's JSON content. -/
def get_latest_report (fs : FS) : Nat × String :=
  match fsRead latest_report_path fs with
  | none => (404, "\x7b\"error\": \"No reports available\"\x7d")
  | some content => (200, content)

/-- Primitive file operations; `openWrite` is Python `open(path, "w")`,
which truncates the target in place before any data is written. -/
inductive FileOp where
  | openWrite (path : String)
  | writeAll (content : String)
  | rename (src : String) (tgt : String)
deriving DecidableEq

/-- The persistence step of `process_screenshot`
(`with open(report_file, "w") as f: json.dump(existing_reports, f, ...)`):
open the partition file directly and write the serialised list. -/
def persistOps (report_file : String) (content : String) : List FileOp :=
  [FileOp.openWrite report_file, FileOp.writeAll content]

/-- The write-temp-then-rename pattern asserted by the spec: all data goes
to a temporary file and a final rename installs it over `target`. -/
def isAtomicReplace (ops : List FileOp) (target : String) : Prop :=
  ∃ tmp content, tmp ≠ target ∧
    ops = [FileOp.openWrite tmp, FileOp.writeAll content, FileOp.rename tmp target]

structure IOState where
  fs : FS
  opened : Option String
deriving DecidableEq

/-- Effect of one file operation: opening for write truncates the target
at once; a write fills the currently open file; a rename moves content. -/
def applyOp (s : IOState) : FileOp → IOState
  | FileOp.openWrite p => { fs := fsWrite p "" s.fs, opened := some p }
  | FileOp.writeAll c =>
    match s.opened with
    | some p => { fs := fsWrite p c s.fs, opened := some p }
    | none => s
  | FileOp.rename src tgt =>
    match fsRead src s.fs with
    | some c => { fs := fsWrite tgt c (s.fs.filter fun e => e.1 != src), opened := s.opened }
    | none => s

def runOps (s : IOState) (ops : List FileOp) : IOState :=
  ops.foldl applyOp s

/-- The state after a failure that stops the run once the first `k`
operations have completed. -/
def runOpsCrash (s : IOState) (ops : List FileOp) (k : Nat) : IOState :=
  runOps s (ops.take k)

/-- `report.get("total_time", "N/A")` rendered into the paragraph. -/
def timeDiffStr : Option Int → String
  | none => "N/A"
  | some t => toString t

/-- One `formatted_entry` of `generate_readable_report`: clean the text
with `preprocess_text`, summarise it (the external summarizer returns a
list of candidate summaries; an empty list is falsy), grammar-correct the
first summary via `frame` (`frame_sentence`), then format the paragraph
f-string. -/
def formatEntry (username : String) (summ : String → List String)
    (frame : String → String) (r : Report) : String :=
  let cleaned : String := ⟨preprocess_text r.analysis.text.data⟩
  let framed_text :=
    match summ cleaned with
    | [] => "Summary could not be generated."
    | s :: _ => frame s
  "On " ++ toString r.analysis.timestamp ++ ",\n " ++ username ++
    " was reviewing information related to: " ++ framed_text ++
    ".\nTotal time since the first report: " ++ timeDiffStr r.total_time ++ "."

/-- The `formatted_entries` list built by the loop of
`generate_readable_report`, in sequence order. -/
def readableEntries (username : String) (summ : String → List String)
    (frame : String → String) (reports : List Report) : List String :=
  reports.foldl (fun acc r => acc ++ [formatEntry username summ frame r]) []

/-- File write mode: `open(..., "w")` truncates and replaces the previous
content; `open(..., "a")` would extend it. -/
inductive WriteMode where
  | overwrite
  | extend
deriving DecidableEq

structure FileWrite where
  path : String
  mode : WriteMode
  content : String
deriving DecidableEq

/-- `generate_readable_report` of `app.py`: join the formatted entries
with a single `"\n"` and write the result to the date's readable-report
file with `open(summary_file, "w")`. -/
def generate_readable_report (username : String) (summ : String → List String)
    (frame : String → String) (reports : List Report) (today_date : String) : FileWrite :=
  { path := readable_path today_date
    mode := WriteMode.overwrite
    content := String.intercalate "\n" (readableEntries username summ frame reports) }

/-- The transient and persistent artifacts of one pipeline run, keyed by
kind and timestamp/date.  The concrete path strings —
`screenshots/screenshot_<t>.png`, `screenshots/screenshot_<t>_preprocessed.png`,
`screenshots/combined_report_<d>.json`, `screenshots/readable_report_<d>.txt`
— are pairwise distinct for the numeric `<t>` and the `<d>` the source
produces, so distinct constructors model distinct files. -/
inductive FPath where
  | shot (t : String)
  | pre (t : String)
  | combined (d : String)
  | readable (d : String)
deriving DecidableEq

/-- Which of the external calls of a run succeed; `false` models the call
raising (`reader.readtext`, `open`/`json.dump`, the summarizer), which
`process_screenshot` does not catch — there is no try/finally. -/
structure RunOutcome where
  ocrOk : Bool
  persistOk : Bool
  summOk : Bool
deriving DecidableEq

def addFile (p : FPath) (fs : List FPath) : List FPath :=
  if p ∈ fs then fs else fs ++ [p]

def rmFile (p : FPath) (fs : List FPath) : List FPath :=
  fs.filter fun q => q != p

structure RunResult where
  files : List FPath
  completed : Bool
deriving DecidableEq

/-- File-lifecycle trace of one `process_screenshot` run at timestamp `t`
on date `d`: capture saves the screenshot; preprocessing saves the
`_preprocessed` image; a successful OCR removes the preprocessed image
(`analyze_screenshot`); persistence writes the combined JSON; the readable
report is written, and only then is the screenshot removed.  A failing
step raises and ends the run (`completed = false`) with no cleanup
handler. -/
def process_screenshot_files (o : RunOutcome) (t d : String)
    (fs0 : List FPath) : RunResult :=
  let fs1 := addFile (FPath.shot t) fs0
  let fs2 := addFile (FPath.pre t) fs1
  if o.ocrOk then
    let fs3 := rmFile (FPath.pre t) fs2
    if o.persistOk then
      let fs4 := addFile (FPath.combined d) fs3
      if o.summOk then
        let fs5 := addFile (FPath.readable d) fs4
        { files := rmFile (FPath.shot t) fs5, completed := true }
      else { files := fs4, completed := false }
    else { files := fs3, completed := false }
  else { files := fs2, completed := false }

theorem setLastTotal_append (xs : List Report) (r : Report) (t : Int) :
    setLastTotal (xs ++ [r]) t = xs ++ [{ r with total_time := some t }] := by
  induction xs with
  | nil => rfl
  | cons x xs ih =>
    cases xs with
    | nil => rfl
    | cons y ys =>
      simpa [setLastTotal] using ih

theorem appendReport_model (as : List Analysis) (a : Analysis) :
    appendReport (modelReports as) a = modelReports (as ++ [a]) := by
  cases as with
  | nil => rfl
  | cons a0 rest =>
    have hlen : 1 < (modelReports (a0 :: rest) ++
        [({ analysis := a, total_time := none } : Report)]).length := by
      simp [modelReports]
    simp only [appendReport, if_pos hlen]
    have hfirst : firstTimestamp (modelReports (a0 :: rest) ++
        [({ analysis := a, total_time := none } : Report)]) = a0.timestamp := by
      simp [modelReports, firstTimestamp]
    rw [hfirst, setLastTotal_append]
    simp [modelReports]

theorem foldl_appendReport (rest : List Analysis) :
    ∀ as : List Analysis,
      List.foldl appendReport (modelReports as) rest = modelReports (as ++ rest) := by
  induction rest with
  | nil => intro as; simp
  | cons a l ih =>
    intro as
    have h1 : List.foldl appendReport (modelReports as) (a :: l) =
        List.foldl appendReport (appendReport (modelReports as) a) l := rfl
    rw [h1, appendReport_model, ih (as ++ [a])]
    simp

theorem appendAll_eq_model (as : List Analysis) :
    appendAll as = modelReports as := by
  have h := foldl_appendReport as []
  simpa [appendAll] using h

/-- C1, counterexample: after three appends to the same date, the stored
list has length 3 yet the record at index 1 — not the last record — still
carries `total_time`: the value written at the second append is never
cleared by the third. -/
theorem c1_counterexample :
    (appendAll [⟨"a", 100⟩, ⟨"b", 200⟩, ⟨"c", 300⟩]).length = 3 ∧
      (appendAll [⟨"a", 100⟩, ⟨"b", 200⟩, ⟨"c", 300⟩])[1]?.map
        (fun r => r.total_time) = some (some 100) := by
  decide

/-- C1 (amended): each append sets `total_time` on the new last record but
never clears the value left on the former last record, so after any
non-empty append sequence the first record carries no `total_time` and
every later record `a` carries `a.timestamp - a0.timestamp`, written at its
own append. -/
theorem c1_total_time_all_but_first (a0 : Analysis) (rest : List Analysis) :
    appendAll (a0 :: rest) =
      { analysis := a0, total_time := none } ::
        rest.map (fun a =>
          { analysis := a, total_time := some ((a.timestamp : Int) - (a0.timestamp : Int)) }) := by
  simpa [modelReports] using appendAll_eq_model (a0 :: rest)

/-- C3: an append that brings the day's sequence to two or more records
stores on the new last record `total_time` equal to the new record's
timestamp minus the first record's timestamp; with captures at 10:00:00
(36000 s of day) and 10:04:30 (36270 s) the second record carries
270 s = 4 min 30 s. -/
theorem c3_elapsed_eq_diff (a0 a : Analysis) (rest : List Analysis) :
    (appendAll (a0 :: (rest ++ [a]))).getLast? =
        some { analysis := a,
               total_time := some ((a.timestamp : Int) - (a0.timestamp : Int)) } ∧
      ((appendAll [⟨"w1", 36000⟩, ⟨"w2", 36270⟩]).getLast?.map (fun r => r.total_time) =
          some (some 270) ∧ (270 : Int) = 4 * 60 + 30) := by
  constructor
  · rw [appendAll_eq_model]
    simp only [modelReports, List.map_append, List.map_cons, List.map_nil]
    rw [← List.cons_append, List.getLast?_concat]
  · decide

/-- C6: a sequence of N appends yields exactly N stored records in append
order, each keeping the text and timestamp it was appended with (projecting
the store to its `analysis` fields returns the input sequence), and a
single append leaves the prefix of previously stored records untouched. -/
theorem c6_append_order :
    (∀ as : List Analysis,
        (appendAll as).length = as.length ∧
          (appendAll as).map (fun r => r.analysis) = as) ∧
      ∀ (rs : List Report) (a : Analysis),
        (appendReport rs a).take rs.length = rs := by
  constructor
  · intro as
    rw [appendAll_eq_model]
    refine ⟨?_, ?_⟩
    · cases as <;> simp [modelReports]
    · cases as with
      | nil => rfl
      | cons a0 rest => simp [modelReports, List.map_map, Function.comp_def]
  · intro rs a
    by_cases h : 1 < (rs ++ [({ analysis := a, total_time := none } : Report)]).length
    · simp only [appendReport]
      rw [if_pos h, setLastTotal_append]
      exact List.take_left rs _
    · simp only [appendReport]
      rw [if_neg h]
      exact List.take_left rs _

/-- C7: the first append of a day yields a single record with no
`total_time`; the second append populates it on the second record only,
the first record still carrying none. -/
theorem c7_first_two_appends (a b : Analysis) :
    appendAll [a] = [{ analysis := a, total_time := none }] ∧
      appendAll [a, b] =
        [{ analysis := a, total_time := none },
         { analysis := b, total_time := some ((b.timestamp : Int) - (a.timestamp : Int)) }] := by
  refine ⟨?_, ?_⟩ <;> rw [appendAll_eq_model] <;> rfl

/-- C10: after any non-empty sequence of appends to one date, the first
stored record carries no `total_time`: the update writes the field only on
the current last element and only when the list holds at least two
records, so index 0 is never written. -/
theorem c10_first_record_no_total (a : Analysis) (rest : List Analysis) :
    (appendAll (a :: rest)).head? = some { analysis := a, total_time := none } := by
  rw [appendAll_eq_model]
  rfl

theorem afterLit_eq {ps cs r : List Char} (h : afterLit ps cs = some r) :
    cs = ps ++ r := by
  induction ps generalizing cs with
  | nil =>
    simp only [afterLit, Option.some.injEq] at h
    simp [h]
  | cons p ps ih =>
    cases cs with
    | nil => simp [afterLit] at h
    | cons c cs2 =>
      simp only [afterLit] at h
      by_cases hc : c = p
      · rw [if_pos hc] at h
        subst hc
        simpa using ih h
      · rw [if_neg hc] at h
        exact absurd h (by simp)

theorem matchSplus_lt {cs rest : List Char} (h : matchSplus cs = some rest) :
    rest.length < cs.length := by
  cases cs with
  | nil => simp [matchSplus] at h
  | cons c cs2 =>
    simp only [matchSplus] at h
    by_cases hc : isSpaceChar c
    · rw [if_pos hc] at h; exact absurd h (by simp)
    · rw [if_neg hc] at h
      simp only [Option.some.injEq] at h
      subst h
      have := (List.dropWhile_suffix (l := cs2) fun d => !isSpaceChar d).length_le
      simpa using Nat.lt_succ_of_le this

theorem matchURL_lt {cs rest : List Char} (h : matchURL cs = some rest) :
    rest.length < cs.length := by
  have key : ∀ lit r2 : List Char, afterLit lit cs = some r2 →
      matchSplus r2 = some rest → rest.length < cs.length := by
    intro lit r2 h1 h2
    have hcs := afterLit_eq h1
    have := matchSplus_lt h2
    rw [hcs, List.length_append]
    omega
  unfold matchURL at h
  cases h1 : afterLit ['h', 't', 't', 'p', 's', ':', '/', '/'] cs with
  | some r2 => rw [h1] at h; exact key _ r2 h1 h
  | none =>
    rw [h1] at h
    cases h2 : afterLit ['h', 't', 't', 'p', ':', '/', '/'] cs with
    | some r2 => rw [h2] at h; exact key _ r2 h2 h
    | none =>
      rw [h2] at h
      cases h3 : afterLit ['w', 'w', 'w', '.'] cs with
      | some r2 => rw [h3] at h; exact key _ r2 h3 h
      | none => rw [h3] at h; exact absurd h (by simp)

theorem stripURLsAux_fuel : ∀ (f1 f2 : Nat) (cs : List Char),
    cs.length ≤ f1 → cs.length ≤ f2 → stripURLsAux f1 cs = stripURLsAux f2 cs := by
  intro f1
  induction f1 with
  | zero =>
    intro f2 cs h1 _
    have : cs = [] := List.eq_nil_of_length_eq_zero (Nat.le_zero.mp h1)
    subst this
    cases f2 <;> rfl
  | succ n ih =>
    intro f2 cs h1 h2
    cases cs with
    | nil => cases f2 <;> rfl
    | cons c cs2 =>
      cases f2 with
      | zero => simp at h2
      | succ m =>
        simp only [stripURLsAux]
        cases hm : matchURL (c :: cs2) with
        | some rest =>
          have hlt := matchURL_lt hm
          simp only [List.length_cons] at h1 h2 hlt
          exact ih m rest (by omega) (by omega)
        | none =>
          simp only [List.length_cons] at h1 h2
          rw [ih m cs2 (by omega) (by omega)]

theorem matchURL_none_of_clean (cs : List Char)
    (h : ∀ c ∈ cs, isWordChar c = true ∨ c = ' ') : matchURL cs = none := by
  have hcolon : (':' : Char) ∉ cs := by
    intro hm
    rcases h ':' hm with h2 | h2
    · exact absurd h2 (by decide)
    · exact absurd h2 (by decide)
  have hdot : ('.' : Char) ∉ cs := by
    intro hm
    rcases h '.' hm with h2 | h2
    · exact absurd h2 (by decide)
    · exact absurd h2 (by decide)
  unfold matchURL
  cases h1 : afterLit ['h', 't', 't', 'p', 's', ':', '/', '/'] cs with
  | some r => exact absurd (by rw [afterLit_eq h1]; simp : (':' : Char) ∈ cs) hcolon
  | none =>
    cases h2 : afterLit ['h', 't', 't', 'p', ':', '/', '/'] cs with
    | some r => exact absurd (by rw [afterLit_eq h2]; simp : (':' : Char) ∈ cs) hcolon
    | none =>
      cases h3 : afterLit ['w', 'w', 'w', '.'] cs with
      | some r => exact absurd (by rw [afterLit_eq h3]; simp : ('.' : Char) ∈ cs) hdot
      | none => rfl

theorem stripURLsAux_id (fuel : Nat) :
    ∀ cs : List Char, (∀ c ∈ cs, isWordChar c = true ∨ c = ' ') →
      stripURLsAux fuel cs = cs := by
  induction fuel with
  | zero => intro cs _; rfl
  | succ n ih =>
    intro cs h
    cases cs with
    | nil => rfl
    | cons c cs2 =>
      simp only [stripURLsAux]
      rw [matchURL_none_of_clean _ h]
      exact congrArg (c :: ·) (ih cs2 fun d hd => h d (List.mem_cons_of_mem c hd))

theorem stripURLs_id (cs : List Char)
    (h : ∀ c ∈ cs, isWordChar c = true ∨ c = ' ') : stripURLs cs = cs :=
  stripURLsAux_id _ cs h

theorem stripQueryBody_id (cs : List Char) (hq : ('?' : Char) ∉ cs)
    (hn : ('\n' : Char) ∉ cs) : stripQueryBody cs = cs := by
  have hll : lastLineOf cs = cs := by
    unfold lastLineOf
    have ht : cs.reverse.takeWhile (fun c => c ≠ '\n') = cs.reverse := by
      apply List.takeWhile_eq_self_iff.mpr
      intro c hc
      simp only [ne_eq, decide_not, Bool.not_eq_true', decide_eq_false_iff_not]
      exact fun hce => hn (hce ▸ List.mem_reverse.mp hc)
    rw [ht, List.reverse_reverse]
  unfold stripQueryBody
  rw [hll, Nat.sub_self, List.take_zero, List.nil_append]
  apply List.takeWhile_eq_self_iff.mpr
  intro c hc
  simp only [ne_eq, decide_not, Bool.not_eq_true', decide_eq_false_iff_not]
  exact fun hce => hq (hce ▸ hc)

theorem stripQuery_id (cs : List Char) (hq : ('?' : Char) ∉ cs)
    (hn : ('\n' : Char) ∉ cs) : stripQuery cs = cs := by
  unfold stripQuery
  rw [if_neg ?_]
  · exact stripQueryBody_id cs hq hn
  · intro hlast
    obtain ⟨hne, hx⟩ :=
      List.mem_getLast?_eq_getLast (show ('\n' : Char) ∈ cs.getLast? from hlast)
    exact hn (hx ▸ List.getLast_mem hne)

theorem space_not_word {c : Char} (h : isSpaceChar c = true) : isWordChar c = false := by
  simp only [isSpaceChar, Bool.or_eq_true, decide_eq_true_eq] at h
  rcases h with ((((h | h) | h) | h) | h) | h <;> subst h <;> decide

theorem mem_collapseSpaces {c : Char} :
    ∀ (prev : Bool) (cs : List Char), c ∈ collapseSpacesAux prev cs →
      c = ' ' ∨ (c ∈ cs ∧ isSpaceChar c = false) := by
  intro prev cs
  induction cs generalizing prev with
  | nil => intro h; simp [collapseSpacesAux] at h
  | cons d ds ih =>
    intro h
    simp only [collapseSpacesAux] at h
    by_cases hd : isSpaceChar d = true
    · rw [if_pos hd] at h
      by_cases hp : prev = true
      · rw [if_pos hp] at h
        rcases ih true h with h1 | ⟨h2, h3⟩
        · exact Or.inl h1
        · exact Or.inr ⟨List.mem_cons_of_mem d h2, h3⟩
      · rw [if_neg hp] at h
        rcases List.mem_cons.mp h with h1 | h1
        · exact Or.inl h1
        · rcases ih true h1 with h2 | ⟨h2, h3⟩
          · exact Or.inl h2
          · exact Or.inr ⟨List.mem_cons_of_mem d h2, h3⟩
    · rw [if_neg hd] at h
      rcases List.mem_cons.mp h with h1 | h1
      · subst h1
        exact Or.inr ⟨List.mem_cons_self c ds, by simpa using hd⟩
      · rcases ih false h1 with h2 | ⟨h2, h3⟩
        · exact Or.inl h2
        · exact Or.inr ⟨List.mem_cons_of_mem d h2, h3⟩

theorem head_collapse_true :
    ∀ (cs : List Char) (c : Char), (collapseSpacesAux true cs).head? = some c →
      isSpaceChar c = false := by
  intro cs
  induction cs with
  | nil => intro c h; simp [collapseSpacesAux] at h
  | cons d ds ih =>
    intro c h
    simp only [collapseSpacesAux] at h
    by_cases hd : isSpaceChar d = true
    · rw [if_pos hd, if_pos trivial] at h
      exact ih c h
    · rw [if_neg hd] at h
      simp only [List.head?_cons, Option.some.injEq] at h
      subst h
      simpa using hd

theorem chain_collapse : ∀ (prev : Bool) (cs : List Char),
    List.Chain' SpacedOK (collapseSpacesAux prev cs) := by
  intro prev cs
  induction cs generalizing prev with
  | nil => simp [collapseSpacesAux]
  | cons d ds ih =>
    by_cases hd : isSpaceChar d = true
    · by_cases hp : prev = true
      · simpa [collapseSpacesAux, hd, hp] using ih true
      · simp only [collapseSpacesAux, hd, if_true, if_neg hp]
        rw [List.chain'_cons']
        refine ⟨?_, ih true⟩
        intro b hb
        have hbs := head_collapse_true ds b hb
        intro hcon
        rw [hbs] at hcon
        exact absurd hcon.2 (by decide)
    · simp only [collapseSpacesAux, if_neg hd]
      rw [List.chain'_cons']
      refine ⟨?_, ih false⟩
      intro b _
      intro hcon
      exact absurd hcon.1 (by simpa using hd)

theorem collapse_id : ∀ (cs : List Char) (prev : Bool),
    (∀ c ∈ cs, isSpaceChar c = true → c = ' ') →
    List.Chain' SpacedOK cs →
    (prev = true → ∀ c, cs.head? = some c → isSpaceChar c = false) →
    collapseSpacesAux prev cs = cs := by
  intro cs
  induction cs with
  | nil => intro prev _ _ _; rfl
  | cons d ds ih =>
    intro prev hsp hch hhd
    by_cases hd : isSpaceChar d = true
    · have hd2 : d = ' ' := hsp d (List.mem_cons_self d ds) hd
      have hp : prev = false := by
        cases prev
        · rfl
        · exact absurd (hhd rfl d rfl) (by simp [hd])
      subst hp
      simp only [collapseSpacesAux, hd, if_true, if_neg (by simp : ¬(false = true))]
      rw [hd2]
      congr 1
      apply ih true
      · intro c hc hsc
        exact hsp c (List.mem_cons_of_mem d hc) hsc
      · exact hch.tail
      · intro _ c hc
        have hok := (List.chain'_cons'.mp hch).1 c hc
        by_contra hcc
        exact hok ⟨hd, by simpa using hcc⟩
    · simp only [collapseSpacesAux, if_neg hd]
      congr 1
      apply ih false
      · intro c hc hsc
        exact hsp c (List.mem_cons_of_mem d hc) hsc
      · exact hch.tail
      · intro hfalse
        exact absurd hfalse (by simp)

theorem dropWhile_head_false {p : Char → Bool} :
    ∀ (l : List Char) (c : Char), (l.dropWhile p).head? = some c → p c = false := by
  intro l
  induction l with
  | nil => intro c h; simp at h
  | cons d ds ih =>
    intro c h
    rw [List.dropWhile_cons] at h
    by_cases hd : p d = true
    · rw [if_pos hd] at h
      exact ih c h
    · rw [if_neg hd] at h
      simp only [List.head?_cons, Option.some.injEq] at h
      subst h
      simpa using hd

theorem mem_pyStrip {l : List Char} {c : Char} (h : c ∈ pyStrip l) : c ∈ l := by
  unfold pyStrip at h
  exact (List.dropWhile_suffix isSpaceChar).subset
    (( List.rdropWhile_prefix isSpaceChar _).subset h)

theorem pyStrip_head {l : List Char} {c : Char} (h : (pyStrip l).head? = some c) :
    isSpaceChar c = false := by
  obtain ⟨t, ht⟩ := List.rdropWhile_prefix isSpaceChar (l.dropWhile isSpaceChar)
  have hpl : pyStrip l ++ t = l.dropWhile isSpaceChar := ht
  have h2 : (l.dropWhile isSpaceChar).head? = some c := by
    rw [← hpl]
    cases hps : pyStrip l with
    | nil => rw [hps] at h; simp at h
    | cons x xs =>
      rw [hps] at h
      simp only [List.cons_append, List.head?_cons]
      simpa using h
  exact dropWhile_head_false l c h2

theorem pyStrip_last {l : List Char} {c : Char} (h : (pyStrip l).getLast? = some c) :
    isSpaceChar c = false := by
  unfold pyStrip List.rdropWhile at h
  rw [List.getLast?_reverse] at h
  exact dropWhile_head_false _ c h

theorem pyStrip_id {l : List Char}
    (hh : ∀ c, l.head? = some c → isSpaceChar c = false)
    (hl : ∀ c, l.getLast? = some c → isSpaceChar c = false) :
    pyStrip l = l := by
  have h1 : l.dropWhile isSpaceChar = l := by
    cases l with
    | nil => rfl
    | cons d ds =>
      rw [List.dropWhile_cons, if_neg]
      simp [hh d rfl]
  unfold pyStrip
  rw [h1]
  apply List.rdropWhile_eq_self_iff.mpr
  intro hne
  have := hl (l.getLast hne) (List.getLast?_eq_getLast_of_ne_nil hne)
  simp [this]

theorem chain_pyStrip {l : List Char} (h : List.Chain' SpacedOK l) :
    List.Chain' SpacedOK (pyStrip l) := by
  unfold pyStrip
  exact List.Chain'.prefix (h.suffix (List.dropWhile_suffix isSpaceChar))
    ( List.rdropWhile_prefix isSpaceChar _)

theorem mem_preprocess {cs : List Char} {c : Char} (h : c ∈ preprocess_text cs) :
    isWordChar c = true ∨ c = ' ' := by
  unfold preprocess_text at h
  have h1 := mem_pyStrip h
  rcases mem_collapseSpaces false _ h1 with h2 | ⟨h2, h3⟩
  · exact Or.inr h2
  · have h4 := (List.mem_filter.mp h2).2
    rcases Bool.or_eq_true_iff.mp h4 with h5 | h5
    · exact Or.inl h5
    · rw [h5] at h3
      exact absurd h3 (by decide)

/-- C8: text normalisation is idempotent — applying `preprocess_text` to
its own output returns that output unchanged.  The first pass leaves only
word characters and isolated single spaces with trimmed ends, on which the
URL deletion, the query deletion, the special-character filter, the
whitespace collapse and the trim are all the identity. -/
theorem c8_preprocess_idempotent (cs : List Char) :
    preprocess_text (preprocess_text cs) = preprocess_text cs := by
  have hW : ∀ c ∈ preprocess_text cs, isWordChar c = true ∨ c = ' ' :=
    fun c hc => mem_preprocess hc
  have hnq : ('?' : Char) ∉ preprocess_text cs := by
    intro hm
    rcases hW _ hm with h | h
    · exact absurd h (by decide)
    · exact absurd h (by decide)
  have hnn : ('\n' : Char) ∉ preprocess_text cs := by
    intro hm
    rcases hW _ hm with h | h
    · exact absurd h (by decide)
    · exact absurd h (by decide)
  have h1 : stripURLs (preprocess_text cs) = preprocess_text cs :=
    stripURLs_id _ hW
  have h2 : stripQuery (preprocess_text cs) = preprocess_text cs :=
    stripQuery_id _ hnq hnn
  have h3 : removeSpecial (preprocess_text cs) = preprocess_text cs := by
    apply List.filter_eq_self.mpr
    intro c hc
    rcases hW c hc with h | h
    · simp [h]
    · subst h; decide
  have hchain : List.Chain' SpacedOK (preprocess_text cs) :=
    chain_pyStrip (chain_collapse false _)
  have hsp1 : ∀ c ∈ preprocess_text cs, isSpaceChar c = true → c = ' ' := by
    intro c hc hs
    rcases hW c hc with h | h
    · rw [space_not_word hs] at h
      exact absurd h (by decide)
    · exact h
  have h4 : collapseSpacesAux false (preprocess_text cs) = preprocess_text cs :=
    collapse_id _ false hsp1 hchain (fun hf => absurd hf (by simp))
  have h5 : pyStrip (preprocess_text cs) = preprocess_text cs := by
    apply pyStrip_id
    · intro c hc
      exact pyStrip_head hc
    · intro c hc
      exact pyStrip_last hc
  calc preprocess_text (preprocess_text cs)
      = pyStrip (collapseSpacesAux false (removeSpecial
          (stripQuery (stripURLs (preprocess_text cs))))) := rfl
    _ = preprocess_text cs := by rw [h1, h2, h3, h4, h5]

theorem fsRead_fsWrite_self (p c : String) (fs : FS) :
    fsRead p (fsWrite p c fs) = some c := by
  simp [fsRead, fsWrite, List.find?_cons_of_pos]

theorem readableEntries_eq_map (username : String) (summ : String → List String)
    (frame : String → String) :
    ∀ (reports : List Report) (acc : List String),
      reports.foldl (fun acc r => acc ++ [formatEntry username summ frame r]) acc =
        acc ++ reports.map (formatEntry username summ frame) := by
  intro reports
  induction reports with
  | nil => intro acc; simp
  | cons r rest ih =>
    intro acc
    simp only [List.foldl_cons, List.map_cons]
    rw [ih (acc ++ [formatEntry username summ frame r])]
    simp

/-- C2: the `GET /report` handler reads the fixed date-less path
`screenshots/combined_report.json`, but `process_screenshot` writes only
the dated `screenshots/combined_report_<date>.json`: after the day's
report is written the endpoint still answers 404 with the error object,
never 200 — evaluated here at the failing input of one append on
2024-01-01. -/
theorem c2_route_reads_wrong_file :
    fsRead (report_path "2024-01-01")
        (fsWrite (report_path "2024-01-01") "daydata" []) = some "daydata" ∧
      get_latest_report (fsWrite (report_path "2024-01-01") "daydata" []) =
        (404, "\x7b\"error\": \"No reports available\"\x7d") ∧
      latest_report_path ≠ report_path "2024-01-01" := by
  refine ⟨rfl, ?_, by decide⟩
  rfl

/-- C4, counterexample: the persistence step of `process_screenshot` is a
direct `open(report_file, "w")` followed by the dump — not the
write-temp-then-rename pattern — and a failure right after the open leaves
the partition file truncated to empty, destroying the previous contents
`"old"`. -/
theorem c4_counterexample :
    ¬ isAtomicReplace (persistOps (report_path "2024-01-01") "newdata")
        (report_path "2024-01-01") ∧
      fsRead (report_path "2024-01-01")
        (runOpsCrash { fs := [(report_path "2024-01-01", "old")], opened := none }
          (persistOps (report_path "2024-01-01") "newdata") 1).fs = some "" := by
  constructor
  · rintro ⟨tmp, content, hne, heq⟩
    have hlen := congrArg List.length heq
    simp [persistOps] at hlen
  · rfl

/-- C4 (amended): `process_screenshot` persists the day's sequence by
opening the partition file directly in write mode and dumping the full
serialised list — no temporary file and no rename is involved, so the
write is in place: completion stores the full content, but the open
truncates the previous contents first. -/
theorem c4_direct_overwrite (f c : String) (fs0 : FS) :
    (runOps { fs := fs0, opened := none } (persistOps f c)).fs =
        fsWrite f c (fsWrite f "" fs0) ∧
      fsRead f (runOps { fs := fs0, opened := none } (persistOps f c)).fs = some c ∧
      ∀ op ∈ persistOps f c, ∀ src tgt, op ≠ FileOp.rename src tgt := by
  refine ⟨rfl, fsRead_fsWrite_self f c _, ?_⟩
  intro op hop src tgt
  rcases List.mem_cons.mp hop with h | h
  · subst h; simp
  · rcases List.mem_cons.mp h with h2 | h2
    · subst h2; simp
    · simp at h2

/-- C4 (amended) witness at a concrete date, content and prior store. -/
theorem c4_direct_overwrite_witness :
    fsRead (report_path "2024-01-01")
      (runOps { fs := [(report_path "2024-01-01", "old")], opened := none }
        (persistOps (report_path "2024-01-01") "newdata")).fs = some "newdata" :=
  (c4_direct_overwrite (report_path "2024-01-01") "newdata"
    [(report_path "2024-01-01", "old")]).2.1

theorem mem_addFile {p q : FPath} {fs : List FPath} :
    q ∈ addFile p fs ↔ q = p ∨ q ∈ fs := by
  unfold addFile
  by_cases h : p ∈ fs
  · rw [if_pos h]
    constructor
    · exact Or.inr
    · rintro (rfl | hq)
      · exact h
      · exact hq
  · rw [if_neg h]
    simp [List.mem_append, or_comm]

theorem mem_rmFile {p q : FPath} {fs : List FPath} :
    q ∈ rmFile p fs ↔ q ∈ fs ∧ q ≠ p := by
  unfold rmFile
  simp [List.mem_filter]

/-- C5, counterexample: a run whose OCR call raises leaves both transient
artifacts — the screenshot and the preprocessed image — behind at the end
of the run, since `process_screenshot` has no try/finally around the
pipeline. -/
theorem c5_counterexample :
    (process_screenshot_files ⟨false, true, true⟩ "t0" "d0" []).files =
        [FPath.shot "t0", FPath.pre "t0"] ∧
      (process_screenshot_files ⟨false, true, true⟩ "t0" "d0" []).completed = false := by
  constructor <;> rfl

/-- C5 (amended): transient artifacts are released only on the success
path.  A run that completes removes both the screenshot and the
preprocessed image; any run that raises leaves the screenshot behind, and
an OCR failure additionally leaves the preprocessed image behind. -/
theorem c5_cleanup_success_only (o : RunOutcome) (t d : String) (fs0 : List FPath)
    (hs : FPath.shot t ∉ fs0) (hp : FPath.pre t ∉ fs0) :
    ((process_screenshot_files o t d fs0).completed = true →
        FPath.shot t ∉ (process_screenshot_files o t d fs0).files ∧
          FPath.pre t ∉ (process_screenshot_files o t d fs0).files) ∧
      ((process_screenshot_files o t d fs0).completed = false →
        FPath.shot t ∈ (process_screenshot_files o t d fs0).files) ∧
      (o.ocrOk = false →
        FPath.pre t ∈ (process_screenshot_files o t d fs0).files) := by
  obtain ⟨ocr, per, sum⟩ := o
  cases ocr <;> cases per <;> cases sum <;>
    simp [process_screenshot_files, mem_addFile, mem_rmFile, hs, hp]

/-- C5 (amended) witness: on an all-successful concrete run both transient
artifacts are gone; on a concrete OCR failure both remain. -/
theorem c5_cleanup_success_only_witness :
    (FPath.shot "t0" ∉ (process_screenshot_files ⟨true, true, true⟩ "t0" "d0" []).files ∧
        FPath.pre "t0" ∉ (process_screenshot_files ⟨true, true, true⟩ "t0" "d0" []).files) ∧
      FPath.shot "t0" ∈ (process_screenshot_files ⟨false, true, true⟩ "t0" "d0" []).files ∧
      FPath.pre "t0" ∈ (process_screenshot_files ⟨false, true, true⟩ "t0" "d0" []).files := by
  refine ⟨?_, ?_, ?_⟩
  · exact (c5_cleanup_success_only ⟨true, true, true⟩ "t0" "d0" []
      (by simp) (by simp)).1 rfl
  · exact (c5_cleanup_success_only ⟨false, true, true⟩ "t0" "d0" []
      (by simp) (by simp)).2.1 rfl
  · exact (c5_cleanup_success_only ⟨false, true, true⟩ "t0" "d0" []
      (by simp) (by simp)).2.2 rfl

/-- C9, counterexample: with two records the readable report joins the
two formatted paragraphs with a single `"\n"`, not with a blank line
(`"\n\n"`) — the built content differs from the blank-line-separated
join of the same two paragraphs. -/
theorem c9_counterexample :
    (generate_readable_report "u" (fun s => [s]) (fun s => s)
        [{ analysis := { text := "a", timestamp := 1 }, total_time := none },
         { analysis := { text := "b", timestamp := 2 }, total_time := some 270 }]
        "2024-01-01").content ≠
      String.intercalate "\n\n"
        (readableEntries "u" (fun s => [s]) (fun s => s)
          [{ analysis := { text := "a", timestamp := 1 }, total_time := none },
           { analysis := { text := "b", timestamp := 2 }, total_time := some 270 }]) := by
  decide

/-- C9 (amended): the readable report contains exactly one formatted
paragraph per record of the day, in sequence order, consecutive paragraphs
joined by a single newline (not a blank line), and it is written with mode
`"w"`, overwriting the previous readable-report file for that date. -/
theorem c9_readable_report_shape (username : String) (summ : String → List String)
    (frame : String → String) (reports : List Report) (today_date : String) :
    (generate_readable_report username summ frame reports today_date).content =
        String.intercalate "\n" (reports.map (formatEntry username summ frame)) ∧
      (readableEntries username summ frame reports).length = reports.length ∧
      (generate_readable_report username summ frame reports today_date).mode =
        WriteMode.overwrite ∧
      (generate_readable_report username summ frame reports today_date).path =
        readable_path today_date := by
  have hmap : readableEntries username summ frame reports =
      reports.map (formatEntry username summ frame) := by
    unfold readableEntries
    simpa using readableEntries_eq_map username summ frame reports []
  refine ⟨?_, ?_, rfl, rfl⟩
  · show String.intercalate "\n" (readableEntries username summ frame reports) = _
    rw [hmap]
  · rw [hmap, List.length_map]
